import Mathlib

/-!
Verification of the hardenvc PTY relay and its HEX/ASCII codec.

The definitions below are shallow embeddings of the C functions in
`src/pty.c` and `src/main.c`.  Bytes are modelled as `Nat` values below 256,
C `char` values as Lean `Char`, buffers as lists, and the return value of a
fallible loop as an `Option` (with `none` meaning the loop is still running
when the supplied trace of syscall results is exhausted).
-/

/-- The `u8nct` nibble/character lookup table from `src/pty.c` (22 entries:
the 16 lowercase representations followed by the six uppercase letters). -/
def u8nct : List (Nat × Char) :=
  [ (0x00, '0'), (0x01, '1'), (0x02, '2'), (0x03, '3'),
    (0x04, '4'), (0x05, '5'), (0x06, '6'), (0x07, '7'),
    (0x08, '8'), (0x09, '9'), (0x0A, 'a'), (0x0B, 'b'),
    (0x0C, 'c'), (0x0D, 'd'), (0x0E, 'e'), (0x0F, 'f'),
    (0x0A, 'A'), (0x0B, 'B'), (0x0C, 'C'), (0x0D, 'D'),
    (0x0E, 'E'), (0x0F, 'F') ]

/-- The scanning loop of `_ctou8`: find the first table entry whose
representation character matches, otherwise fall through with `0x00`
(the C code re-assigns `out = 0x00` on every non-matching iteration). -/
def lutCharToU8 : List (Nat × Char) → Char → Nat
  | [], _ => 0
  | p :: rest, c => if c = p.2 then p.1 else lutCharToU8 rest c

/-- Model of `_ctou8` from `src/pty.c`: character to nibble.  The C loop runs
`for (i = 0; i < 21; i++)` over the 22-entry table, so only the first 21
entries are consulted (the final `(0x0F, 'F')` entry is unreachable). -/
def _ctou8 (c : Char) : Nat := lutCharToU8 (u8nct.take 21) c

/-- The scanning loops of `_u8toc`: find the representation of a nibble
value among the first 16 table entries. -/
def lutU8ToChar : List (Nat × Char) → Nat → Option Char
  | [], _ => none
  | p :: rest, v => if v = p.1 then some p.2 else lutU8ToChar rest v

/-- Model of `_u8toc` from `src/pty.c`.  The first component is the value stored
through the first pointer parameter (`high_nibble_conv`), which the C body
assigns the representation of the LOW nibble `0x0F & in`; the second
component is stored through `low_nibble_conv` and receives the
representation of the HIGH nibble `0x0F & (in >> 4)`.  (If a nibble were
missing from the table the C code would leave the output byte unwritten;
that cannot happen, and the model uses `' '` for that dead branch.) -/
def _u8toc (b : Nat) : Char × Char :=
  ( (lutU8ToChar (u8nct.take 16) (0x0F &&& b)).getD ' ',
    (lutU8ToChar (u8nct.take 16) (0x0F &&& (b >>> 4))).getD ' ' )

/-- The character-emitting loop of `u8nprints`: for input byte `in[i]` the C
code calls `_u8toc( &out[2*i+1], &out[2*i], in[i] )`, so `out[2*i]` receives
the second component of `_u8toc` and `out[2*i+1]` the first. -/
def u8nprintsChars : List Nat → List Char
  | [] => []
  | b :: bs => (_u8toc b).2 :: (_u8toc b).1 :: u8nprintsChars bs

/-- Model of `u8nprints` from `src/pty.c` (ASCII to HEX encoder): truncates the input
to `brs` bytes when the output buffer is too small, then emits two
characters per byte.  The returned C count `i*2` is the length of the
resulting character list. -/
def u8nprints (out_size : Nat) (inp : List Nat) : List Char :=
  let brs := if out_size < inp.length * 2 then out_size / 2 else inp.length
  u8nprintsChars (inp.take brs)

/-- Model of `snprintu8` from `src/pty.c` (HEX to ASCII decoder).  `shift` is
`in_size % 2`; when the input length is odd the FIRST input character is
decoded into `out[0]` with an implicit zero high nibble, and each later
output byte `out[i]` combines `in[2*i - shift]` (high nibble) with
`in[2*i + 1 - shift]` (low nibble).  The C function returns the number of
bytes produced, which is the length of the resulting list. -/
def snprintu8 (out_size : Nat) (inp : List Char) : List Nat :=
  let in_size := inp.length
  let shift := in_size % 2
  let os := if out_size < in_size / 2 + shift then out_size else in_size / 2 + shift
  (List.range os).map (fun i =>
    if i < shift then 0x0F &&& _ctou8 (inp.getD 0 ' ')
    else
      let index := 2 * i + 1 - shift
      let l := _ctou8 (inp.getD index ' ')
      let h := _ctou8 (inp.getD (index - 1) ' ')
      (0xF0 &&& (h <<< 4)) ||| (0x0F &&& l))

/-- The sixteen lowercase hexadecimal digit characters, in value order.
This is the spec-side description of a hex digit; it is compared against
the table-driven encoder of the source. -/
def lowerHexDigits : List Char :=
  ['0', '1', '2', '3', '4', '5', '6', '7'] ++
    ['8', '9', 'a', 'b', 'c', 'd', 'e', 'f']

/-- Spec-side standard lowercase character of a nibble value. -/
def nibbleChar (n : Nat) : Char := lowerHexDigits.getD n ' '

/-- The character class `[0-9a-fA-F]` of valid hexadecimal digits. -/
def hexDigitChars : List Char :=
  ['0', '1', '2', '3', '4', '5', '6', '7'] ++
    ['8', '9', 'a', 'b', 'c', 'd', 'e', 'f'] ++
    ['A', 'B', 'C', 'D', 'E', 'F']


/-- Model of the child half of `ptym_process_stdio` (`src/main.c`): the
stdin-to-pty-master copy loop, driven by the trace of syscall results.  The
loop reads `r`; a negative `r` exits the loop, a zero `r` breaks only when
ignore-EOF is off, and a positive `r` consumes the following trace entry `w`
as the result of the `write` to the master, breaking when it is negative.
On every loop exit the child reaches the post-loop code, which sends SIGTERM
to the parent (`kill( getppid(), SIGTERM )`) exactly when `ignore_eof` is
set; the second component records whether that signal was sent. -/
def ptymChildRun (ieof : Bool) : List Int → Option (Int × Bool)
  | [] => none
  | [r] =>
      if r ≤ -1 then some (r, ieof)
      else if r = 0 then (if ieof then none else some (r, ieof))
      else none
  | r :: w :: rest =>
      if r ≤ -1 then some (r, ieof)
      else if r = 0 then (if ieof then ptymChildRun ieof (w :: rest) else some (r, ieof))
      else if w < 0 then some (r, ieof) else ptymChildRun ieof rest

/-- The parent abort condition `pac` of `ptym_process_stdio`: `-1` when
ignore-EOF is set (read as long as more than `pac` bytes are received),
otherwise `0` (a zero-length read marks EOF). -/
def ptymParentPac (ieof : Bool) : Int := if ieof then -1 else 0

/-- Model of the parent half of `ptym_process_stdio` (`src/main.c`): the
pty-master-to-stdout loop `while ( pac < (nread = read(...)) )`.  A positive
read consumes a write result `w`; the C code breaks when the write result
differs from `nread`.  After the loop the parent sends SIGTERM to the child
unless the `sigcaught` flag was set by the SIGTERM handler; the second
component records whether that signal was sent. -/
def ptymParentRun (sigcaught : Bool) (pac : Int) : List Int → Option (Int × Bool)
  | [] => none
  | [r] => if r ≤ pac then some (r, !sigcaught) else none
  | r :: w :: rest =>
      if r ≤ pac then some (r, !sigcaught)
      else if 0 < r then
        (if w ≠ r then some (r, !sigcaught) else ptymParentRun sigcaught pac rest)
      else ptymParentRun sigcaught pac (w :: rest)

/-- Model of the child (device-to-stdout) loop of `loop_duplex_stdio`
(`src/pty.c`).  A positive read consumes a write result `w`; writes go
through `write_or_warn`, which calls `err_sys` — i.e. exits the process
immediately, before the post-loop `kill` — on a negative result, so a write
failure terminates the direction with no signal sent.  A non-positive read
breaks the loop when ignore-EOF is off; with ignore-EOF on, a zero read
keeps looping and a negative read falls out of the `while (-1 < nread)`
condition.  On a normal loop exit the child sends SIGTERM to the parent
exactly when `1 == ieof`.  The optional line-feed writes and the codec
transform do not affect control flow and are not modelled. -/
def ldsChildRun (ieof : Bool) : List Int → Option (Int × Bool)
  | [] => none
  | [r] =>
      if 0 < r then none
      else if ieof = false then some (r, ieof)
      else if r ≤ -1 then some (r, ieof)
      else none
  | r :: w :: rest =>
      if 0 < r then (if w < 0 then some (r, false) else ldsChildRun ieof rest)
      else if ieof = false then some (r, ieof)
      else if r ≤ -1 then some (r, ieof)
      else ldsChildRun ieof (w :: rest)

/-- Model of the parent (stdin-to-device) loop of `loop_duplex_stdio`
(`src/pty.c`): `while ( (-1 < nwrite) && (-1 < nread) )` whose body is only
`if ( 0 < (nread = read(...)) ) { ... write_or_warn ... }`.  There is no
branch for a non-positive read, so a zero-length read continues the loop
regardless of the ignore-EOF flag; only a negative read (or the `err_sys`
process exit inside `write_or_warn`, modelled by a negative write result)
leaves it.  No `kill` is executed on this path, so the second component is
always `false`. -/
def ldsParentRun : List Int → Option (Int × Bool)
  | [] => none
  | [r] => if r ≤ -1 then some (r, false) else none
  | r :: w :: rest =>
      if r ≤ -1 then some (r, false)
      else if 0 < r then (if w < 0 then some (r, false) else ldsParentRun rest)
      else ldsParentRun (w :: rest)

/-- Observable actions performed by the `cleanup` exit handler of
`src/main.c`. -/
inductive CAction where
  | kill (pid : Int) (signo : Nat)
  | ttyReset
  | freeBuf (which : Nat)
  deriving DecidableEq

/-- POSIX SIGTERM signal number. -/
def SIGTERM : Nat := 15

/-- Model of the `cleanup` exit handler from `src/main.c` as the sequence of
actions it performs: a single `kill( child_pids, SIGTERM )` guarded by
`child_pids > 0`, then `tty_reset` guarded by `0 == detached`, then the
unconditional `free( prog )` and the guarded frees of `prog_list`, `driver`
(guarded by `NULL != prog` in the source), `driver_list` and `cmd`. -/
def cleanup (child_pids : Int) (detached : Bool)
    (progListNonNull progNonNull driverListNonNull cmdNonNull : Bool) : List CAction :=
  (if 0 < child_pids then [CAction.kill child_pids SIGTERM] else []) ++
  (if detached = false then [CAction.ttyReset] else []) ++
  [CAction.freeBuf 0] ++
  (if progListNonNull then [CAction.freeBuf 1] else []) ++
  (if progNonNull then [CAction.freeBuf 2] else []) ++
  (if driverListNonNull then [CAction.freeBuf 3] else []) ++
  (if cmdNonNull then [CAction.freeBuf 4] else [])

/-- Recogniser for termination-signal actions. -/
def isKillAction : CAction → Bool
  | CAction.kill _ _ => true
  | _ => false

/-- Well-formedness of a trace of `write` results against a remaining byte
count: every result is non-negative (no hard error), never larger than what
was asked for, and the trace lasts until the remaining count reaches
zero. -/
def validWrites : List Int → Nat → Bool
  | _, 0 => true
  | [], Nat.succ _ => false
  | cc :: rest, Nat.succ k =>
      decide (0 ≤ cc) && decide (cc.toNat ≤ k + 1) && validWrites rest (k + 1 - cc.toNat)

/-- Model of the loop of `full_write` from `src/pty.c`, driven by the trace
of `write` results.  State: accumulated `total`, bytes already accepted by
the device (`written`), and the not-yet-written tail of the caller's buffer
(whose length is the C variable `remaining`).  A negative result returns
`total` if anything was written, else the error; otherwise the buffer
pointer advances by `cc` and the loop continues until nothing remains. -/
def full_write_go : List Int → Int → List Nat → List Nat → Option (Int × List Nat)
  | _, total, written, [] => some (total, written)
  | [], _, _, _ :: _ => none
  | cc :: rest, total, written, b :: bs =>
      if cc < 0 then some (if 0 < total then total else cc, written)
      else full_write_go rest (total + cc) (written ++ (b :: bs).take cc.toNat)
        ((b :: bs).drop cc.toNat)

/-- Model of `full_write` from `src/pty.c`: run the loop from an empty
accumulator over the whole buffer. -/
def full_write (rs : List Int) (buf : List Nat) : Option (Int × List Nat) :=
  full_write_go rs 0 [] buf

/-- Model of C `strncpy( dest, src, n )` over byte lists, with `src` the
NUL-free name string: positions `i < n` of `dest` receive `src[i]`, or the
NUL padding `0` once `src` is exhausted; positions at `n` and beyond keep
their old contents. -/
def strncpyList (dest src : List Nat) (n : Nat) : List Nat :=
  (List.range dest.length).map (fun i => if i < n then src.getD i 0 else dest.getD i 0)

/-- Model of the slave-name store common to `ptym_open` and `pty_fork_init`
(`src/pty.c`): `strncpy` of the pty name into the caller's buffer of
declared size `n`, followed by forcing a NUL terminator (byte value 0) at
index `n - 1`. -/
def set_slave_name (dest src : List Nat) (n : Nat) : List Nat :=
  (strncpyList dest src n).set (n - 1) 0
set_option maxRecDepth 20000 in
/-- Recombining the two characters emitted for a byte, exactly as the
decoder loop of `snprintu8` does, restores the byte. -/
theorem decodePair_u8toc (b : Nat) (hb : b < 256) :
    (0xF0 &&& (_ctou8 ((_u8toc b).2) <<< 4)) ||| (0x0F &&& _ctou8 ((_u8toc b).1)) = b := by
  revert b hb
  decide

set_option maxRecDepth 20000 in
/-- The two characters produced by `_u8toc` are the standard lowercase
digits of the byte's high and low nibble. -/
theorem u8toc_nibbleChar (b : Nat) (hb : b < 256) :
    (_u8toc b).2 = nibbleChar (b / 16) ∧ (_u8toc b).1 = nibbleChar (b % 16) := by
  revert b hb
  decide

set_option maxRecDepth 20000 in
/-- Both characters produced by `_u8toc` are lowercase hex digits. -/
theorem u8toc_lower (b : Nat) (hb : b < 256) :
    (_u8toc b).1 ∈ lowerHexDigits ∧ (_u8toc b).2 ∈ lowerHexDigits := by
  revert b hb
  decide

/-- The encoder character list is twice as long as its input. -/
theorem u8nprintsChars_length : ∀ l : List Nat, (u8nprintsChars l).length = 2 * l.length
  | [] => rfl
  | _ :: bs => by
      simp [u8nprintsChars, u8nprintsChars_length bs]
      omega

/-- Position `2*i` of the encoder output holds the second component of
`_u8toc` (the high-nibble character) and position `2*i+1` the first
component (the low-nibble character) of the `i`-th input byte. -/
theorem u8nprintsChars_getD : ∀ (l : List Nat) (i : Nat), i < l.length →
    (u8nprintsChars l).getD (2 * i) ' ' = (_u8toc (l.getD i 0)).2 ∧
    (u8nprintsChars l).getD (2 * i + 1) ' ' = (_u8toc (l.getD i 0)).1
  | [], i, h => absurd h (by simp)
  | b :: bs, 0, _ => by simp [u8nprintsChars]
  | b :: bs, i + 1, h => by
      have ih := u8nprintsChars_getD bs i (by simpa using Nat.lt_of_succ_lt_succ h)
      have h2 : 2 * (i + 1) = 2 * i + 1 + 1 := by omega
      simpa [u8nprintsChars, h2] using ih

/-- Membership in the encoder output comes from some input byte. -/
theorem u8nprintsChars_mem : ∀ (l : List Nat) (c : Char), c ∈ u8nprintsChars l →
    ∃ b ∈ l, c = (_u8toc b).1 ∨ c = (_u8toc b).2
  | [], c, h => absurd h (by simp [u8nprintsChars])
  | b :: bs, c, h => by
      simp only [u8nprintsChars, List.mem_cons] at h
      rcases h with h | h | h
      · exact ⟨b, by simp, Or.inr h⟩
      · exact ⟨b, by simp, Or.inl h⟩
      · obtain ⟨b', hb', hc⟩ := u8nprintsChars_mem bs c h
        exact ⟨b', by simp [hb'], hc⟩


/-- The scanning loop returns the fall-through value `0` when no entry of
the table matches the character. -/
theorem lutCharToU8_eq_zero : ∀ (l : List (Nat × Char)) (c : Char),
    (∀ p ∈ l, c ≠ p.2) → lutCharToU8 l c = 0
  | [], _, _ => rfl
  | p :: rest, c, h => by
      rw [lutCharToU8, if_neg (h p (by simp))]
      exact lutCharToU8_eq_zero rest c (fun q hq => h q (by simp [hq]))

/-- C1: Codec round-trip law — for every byte sequence `B` of even length
(bytes below 256) and output buffers of sufficient size, `snprintu8` applied
to the output of `u8nprints` returns exactly `B`. -/
theorem hex_ascii_roundtrip (B : List Nat) (osz1 osz2 : Nat)
    (hB : ∀ b ∈ B, b < 256) (heven : B.length % 2 = 0)
    (h1 : B.length * 2 ≤ osz1) (h2 : B.length ≤ osz2) :
    snprintu8 osz2 (u8nprints osz1 B) = B := by
  have henc : u8nprints osz1 B = u8nprintsChars B := by
    simp [u8nprints, Nat.not_lt.mpr h1]
  rw [henc]
  have h2' : ¬ (osz2 < B.length) := Nat.not_lt.mpr h2
  apply List.ext_getElem
  · simp [snprintu8, u8nprintsChars_length, Nat.mul_mod_right, h2']
  · intro i hi1 hi2
    simp only [snprintu8, u8nprintsChars_length, Nat.mul_mod_right, Nat.add_zero,
      Nat.mul_div_cancel_left _ (by norm_num : 0 < 2), if_neg h2',
      List.getElem_map, List.getElem_range]
    have hi : i < B.length := by simpa using hi2
    have hg := u8nprintsChars_getD B i hi
    rw [if_neg (Nat.not_lt_zero i)]
    simp only [Nat.sub_zero]
    have hidx : 2 * i + 1 - 1 = 2 * i := by omega
    rw [hidx, hg.1, hg.2]
    have hmem : B.getD i 0 ∈ B := by
      rw [List.getD_eq_getElem B 0 hi]
      exact List.getElem_mem hi
    rw [decodePair_u8toc (B.getD i 0) (hB _ hmem)]
    exact List.getD_eq_getElem B 0 hi

/-- Witness for C1: the two-byte sequence `[0xAB, 0x00]` survives the
encode/decode round trip. -/
theorem hex_ascii_roundtrip_witness :
    snprintu8 2 (u8nprints 4 [0xAB, 0x00]) = [0xAB, 0x00] :=
  hex_ascii_roundtrip [0xAB, 0x00] 4 2 (by decide) (by decide) (by decide) (by decide)

/-- Counterexample to C2 as stated: decoding the odd-length input `"abc"`
yields `[0x0A, 0xBC]`, so it is NOT the case that the last output byte is
the nibble value of the last character with the earlier bytes taken from
the leading character pairs (that reading would give `[0xAB, 0x0C]`). -/
theorem snprintu8_odd_trailing_counterexample :
    snprintu8 2 ['a', 'b', 'c'] = [0x0A, 0xBC] ∧
    ¬ ((snprintu8 2 ['a', 'b', 'c']).getD 1 0 = 0x0F &&& _ctou8 'c' ∧
       (snprintu8 2 ['a', 'b', 'c']).getD 0 0 =
         (0xF0 &&& (_ctou8 'a' <<< 4)) ||| (0x0F &&& _ctou8 'b')) := by decide

/-- C2 (amended): HEX-to-ASCII decoding of an input of odd length `2k+1`
treats the odd character at the BEGINNING of the input as a single low
nibble with implicit zero high nibble — the first output byte is the nibble
value of the first character, and the remaining `k` bytes come from the `k`
character pairs that follow it. -/
theorem snprintu8_odd_leading_nibble (s : List Char) (k osz : Nat)
    (hlen : s.length = 2 * k + 1) (hosz : k + 1 ≤ osz) :
    (snprintu8 osz s).length = k + 1 ∧
    (snprintu8 osz s).getD 0 0 = 0x0F &&& _ctou8 (s.getD 0 ' ') ∧
    (∀ i, i < k → (snprintu8 osz s).getD (i + 1) 0 =
      (0xF0 &&& (_ctou8 (s.getD (2 * i + 1) ' ') <<< 4)) |||
        (0x0F &&& _ctou8 (s.getD (2 * i + 2) ' '))) := by
  have hshift : (2 * k + 1) % 2 = 1 := by omega
  have hdiv : (2 * k + 1) / 2 = k := by omega
  have hos : ¬ (osz < k + 1) := Nat.not_lt.mpr hosz
  refine ⟨?_, ?_, ?_⟩
  · simp [snprintu8, hlen, hshift, hdiv, hos]
  · have hl : 0 < ((snprintu8 osz s)).length := by
      simp [snprintu8, hlen, hshift, hdiv, hos]
    rw [List.getD_eq_getElem _ 0 hl]
    simp [snprintu8, hlen, hshift, hdiv, hos]
  · intro i hi
    have hl : i + 1 < ((snprintu8 osz s)).length := by
      simp [snprintu8, hlen, hshift, hdiv, hos]
      omega
    rw [List.getD_eq_getElem _ 0 hl]
    simp only [snprintu8, hlen, hshift, hdiv, if_neg hos, List.getElem_map,
      List.getElem_range]
    rw [if_neg (by omega : ¬ (i + 1 < 1))]
    have e1 : 2 * (i + 1) + 1 - 1 = 2 * i + 2 := by omega
    rw [e1]
    have e2 : 2 * i + 2 - 1 = 2 * i + 1 := by omega
    rw [e2]

/-- Witness for the amended C2 at the odd-length input `"abc"`. -/
theorem snprintu8_odd_leading_nibble_witness :
    (snprintu8 2 ['a', 'b', 'c']).length = 1 + 1 ∧
    (snprintu8 2 ['a', 'b', 'c']).getD 0 0 = 0x0F &&& _ctou8 (['a', 'b', 'c'].getD 0 ' ') ∧
    (∀ i, i < 1 → (snprintu8 2 ['a', 'b', 'c']).getD (i + 1) 0 =
      (0xF0 &&& (_ctou8 (['a', 'b', 'c'].getD (2 * i + 1) ' ') <<< 4)) |||
        (0x0F &&& _ctou8 (['a', 'b', 'c'].getD (2 * i + 2) ' '))) :=
  snprintu8_odd_leading_nibble ['a', 'b', 'c'] 1 2 (by decide) (by decide)

/-- C3: evaluation of the code at the failing input.  The parent direction
of `loop_duplex_stdio` does NOT terminate on zero-length reads: after any
number of consecutive zero-length reads — EOF on stdin, with ignore-EOF
disabled or enabled alike, since the loop never consults the flag — the
copy loop is still running (the claim requires the direction to terminate
when ignore-EOF is disabled). -/
theorem lds_parent_ignores_eof (tr : List Int) (h : ∀ r ∈ tr, r = (0 : Int)) :
    ldsParentRun tr = none := by
  induction tr with
  | nil => rfl
  | cons r rest ih =>
      have hr : r = 0 := h r (by simp)
      subst hr
      cases rest with
      | nil => simp [ldsParentRun]
      | cons w rest2 =>
          simp only [ldsParentRun]
          rw [if_neg (by norm_num), if_neg (by norm_num)]
          exact ih (fun x hx => h x (by simp [hx]))

/-- Witness for C3: three consecutive zero-length reads leave the
`loop_duplex_stdio` parent direction still looping. -/
theorem lds_parent_ignores_eof_witness : ldsParentRun [0, 0, 0] = none :=
  lds_parent_ignores_eof [0, 0, 0] (by decide)

/-- Every exit of the `ptym_process_stdio` child loop reaches the post-loop
`kill` code, so the signal flag of the outcome always equals the ignore-EOF
flag. -/
theorem ptymChildRun_kill (ieof : Bool) : ∀ (tr : List Int) (r : Int) (b : Bool),
    ptymChildRun ieof tr = some (r, b) → b = ieof
  | [], r, b, h => by simp [ptymChildRun] at h
  | [x], r, b, h => by
      unfold ptymChildRun at h
      split_ifs at h <;> simp_all
  | x :: w :: rest, r, b, h => by
      unfold ptymChildRun at h
      split_ifs at h <;> solve
        | simp_all
        | exact ptymChildRun_kill ieof (w :: rest) r b h
        | exact ptymChildRun_kill ieof rest r b h

/-- Every exit of the `ptym_process_stdio` parent loop sends SIGTERM to the
child exactly when `sigcaught` is unset. -/
theorem ptymParentRun_kill (sc : Bool) (pac : Int) : ∀ (tr : List Int) (r : Int) (b : Bool),
    ptymParentRun sc pac tr = some (r, b) → b = !sc
  | [], r, b, h => by simp [ptymParentRun] at h
  | [x], r, b, h => by
      unfold ptymParentRun at h
      split_ifs at h <;> simp_all
  | x :: w :: rest, r, b, h => by
      unfold ptymParentRun at h
      split_ifs at h <;> solve
        | simp_all
        | exact ptymParentRun_kill sc pac (w :: rest) r b h
        | exact ptymParentRun_kill sc pac rest r b h

/-- The `loop_duplex_stdio` child direction signals the parent only when
ignore-EOF was enabled. -/
theorem ldsChildRun_kill (ieof : Bool) : ∀ (tr : List Int) (r : Int) (b : Bool),
    ldsChildRun ieof tr = some (r, b) → b = true → ieof = true
  | [], r, b, h => by simp [ldsChildRun] at h
  | [x], r, b, h => by
      unfold ldsChildRun at h
      split_ifs at h <;> simp_all
  | x :: w :: rest, r, b, h => by
      unfold ldsChildRun at h
      split_ifs at h <;> solve
        | simp_all
        | exact ldsChildRun_kill ieof (w :: rest) r b h
        | exact ldsChildRun_kill ieof rest r b h

/-- The `loop_duplex_stdio` parent direction never sends a termination
signal. -/
theorem ldsParentRun_kill : ∀ (tr : List Int) (r : Int) (b : Bool),
    ldsParentRun tr = some (r, b) → b = false
  | [], r, b, h => by simp [ldsParentRun] at h
  | [x], r, b, h => by
      unfold ldsParentRun at h
      split_ifs at h <;> simp_all
  | x :: w :: rest, r, b, h => by
      unfold ldsParentRun at h
      split_ifs at h <;> solve
        | simp_all
        | exact ldsParentRun_kill (w :: rest) r b h
        | exact ldsParentRun_kill rest r b h

/-- Counterexample to C4 as stated: with ignore-EOF disabled, the child
direction of `ptym_process_stdio` stops on a zero-length read (a
non-ignored EOF) WITHOUT sending a termination signal to the process
running the other direction — the outcome's signal flag is `false`, not
`true`. -/
theorem relay_child_eof_no_signal_counterexample :
    ptymChildRun false [0] = some (0, false) ∧
    some ((0 : Int), false) ≠ some ((0 : Int), true) := by decide

/-- C4 (amended): mutual relay shutdown holds only partially.  Whenever a
relay direction stops: the `ptym_process_stdio` child signals the parent
exactly when ignore-EOF is enabled (so with it disabled it stops silently);
the `ptym_process_stdio` parent signals the child exactly when no SIGTERM
was caught; the `loop_duplex_stdio` child signals the parent only when
ignore-EOF is enabled; and the `loop_duplex_stdio` parent never signals the
child. -/
theorem relay_shutdown_signalling (ieof sc : Bool) (t1 t2 t3 t4 : List Int)
    (r1 r2 r3 r4 : Int) (b1 b2 b3 b4 : Bool)
    (h1 : ptymChildRun ieof t1 = some (r1, b1))
    (h2 : ptymParentRun sc (ptymParentPac ieof) t2 = some (r2, b2))
    (h3 : ldsChildRun ieof t3 = some (r3, b3))
    (h4 : ldsParentRun t4 = some (r4, b4)) :
    b1 = ieof ∧ b2 = !sc ∧ (b3 = true → ieof = true) ∧ b4 = false :=
  ⟨ptymChildRun_kill ieof t1 r1 b1 h1,
   ptymParentRun_kill sc (ptymParentPac ieof) t2 r2 b2 h2,
   ldsChildRun_kill ieof t3 r3 b3 h3,
   ldsParentRun_kill t4 r4 b4 h4⟩

/-- Witness for the amended C4: all four directions stopping on a read
error, with ignore-EOF enabled and no signal caught. -/
theorem relay_shutdown_signalling_witness :
    (true : Bool) = true ∧ (true : Bool) = !false ∧
    ((true : Bool) = true → (true : Bool) = true) ∧ (false : Bool) = false :=
  relay_shutdown_signalling true false [-1] [-1] [-1] [-1] (-1) (-1) (-1) (-1)
    true true true false (by decide) (by decide) (by decide) (by decide)

/-- C5: Child liveness invariant — the `cleanup` exit handler attempts
exactly one termination signal when the recorded child pid is live
(`child_pids > 0`) and none otherwise, and any signal it attempts is a
SIGTERM aimed at that pid.  This holds for every combination of the other
global-state flags the handler consults. -/
theorem cleanup_sigterm_exactly_once (p : Int) (d pl pn dl cn : Bool) :
    ((cleanup p d pl pn dl cn).countP isKillAction = if 0 < p then 1 else 0) ∧
    (∀ a ∈ cleanup p d pl pn dl cn, isKillAction a = true → a = CAction.kill p SIGTERM) := by
  constructor
  · by_cases hp : 0 < p <;>
      cases d <;> cases pl <;> cases pn <;> cases dl <;> cases cn <;>
      simp [cleanup, hp, isKillAction, List.countP_append, List.countP_cons]
  · intro a ha hk
    cases a with
    | ttyReset => simp [isKillAction] at hk
    | freeBuf k => simp [isKillAction] at hk
    | kill q s =>
        by_cases hp : 0 < p <;>
          cases d <;> cases pl <;> cases pn <;> cases dl <;> cases cn <;>
          simp [cleanup, hp] at ha <;>
          simp [ha]

/-- C6: ASCII-to-HEX encoding shape — with an output buffer of at least
`2n` characters, `u8nprints` on `n` bytes produces exactly `2n` characters;
the character at even index `2i` is the standard lowercase digit of byte
`i`'s high nibble, the one at `2i+1` the digit of its low nibble, and every
emitted character is a lowercase hex digit. -/
theorem u8nprints_shape (B : List Nat) (osz : Nat)
    (hB : ∀ b ∈ B, b < 256) (hosz : B.length * 2 ≤ osz) :
    (u8nprints osz B).length = 2 * B.length ∧
    (∀ i, i < B.length →
      (u8nprints osz B).getD (2 * i) ' ' = nibbleChar (B.getD i 0 / 16) ∧
      (u8nprints osz B).getD (2 * i + 1) ' ' = nibbleChar (B.getD i 0 % 16)) ∧
    (∀ c ∈ u8nprints osz B, c ∈ lowerHexDigits) := by
  have henc : u8nprints osz B = u8nprintsChars B := by
    simp [u8nprints, Nat.not_lt.mpr hosz]
  rw [henc]
  refine ⟨u8nprintsChars_length B, ?_, ?_⟩
  · intro i hi
    have hg := u8nprintsChars_getD B i hi
    have hmem : B.getD i 0 ∈ B := by
      rw [List.getD_eq_getElem B 0 hi]
      exact List.getElem_mem hi
    have hn := u8toc_nibbleChar (B.getD i 0) (hB _ hmem)
    exact ⟨hg.1.trans hn.1, hg.2.trans hn.2⟩
  · intro c hc
    obtain ⟨b, hb, hcb⟩ := u8nprintsChars_mem B c hc
    have hl := u8toc_lower b (hB b hb)
    rcases hcb with rfl | rfl
    · exact hl.1
    · exact hl.2

/-- Witness for C6 at the two-byte input `[0x74, 0x5A]` (which encodes to
`"745a"`). -/
theorem u8nprints_shape_witness :
    (u8nprints 4 [0x74, 0x5A]).length = 2 * 2 ∧
    (∀ i, i < 2 →
      (u8nprints 4 [0x74, 0x5A]).getD (2 * i) ' ' = nibbleChar ([0x74, 0x5A].getD i 0 / 16) ∧
      (u8nprints 4 [0x74, 0x5A]).getD (2 * i + 1) ' ' = nibbleChar ([0x74, 0x5A].getD i 0 % 16)) ∧
    (∀ c ∈ u8nprints 4 [0x74, 0x5A], c ∈ lowerHexDigits) :=
  u8nprints_shape [0x74, 0x5A] 4 (by decide) (by decide)

/-- C7: evaluation of the code at the failing input.  Decoding the
uppercase digit `'F'` yields nibble `0`, while `'f'` yields `0x0F`, because
the `_ctou8` scan loop runs `i < 21` over the 22-entry table and never
reaches the `(0x0F, 'F')` entry; consequently `"FF"` decodes to byte `0x00`
where `"ff"` decodes to `0xFF`.  This contradicts the case-insensitivity
the table itself was built for. -/
theorem ctou8_uppercase_F_bug :
    _ctou8 'F' = 0 ∧ _ctou8 'f' = 0x0F ∧ _ctou8 'F' ≠ _ctou8 'f' ∧
    snprintu8 1 ['F', 'F'] = [0x00] ∧ snprintu8 1 ['f', 'f'] = [0xFF] := by decide

/-- C8: every character outside the class `[0-9a-fA-F]` decodes to nibble
value zero, silently; in particular decoding `"G1"` yields the same byte as
decoding `"01"`. -/
theorem invalid_hex_decodes_zero (c : Char) (h : c ∉ hexDigitChars) :
    _ctou8 c = 0 ∧ snprintu8 1 ['G', '1'] = snprintu8 1 ['0', '1'] := by
  refine ⟨?_, by decide⟩
  apply lutCharToU8_eq_zero
  intro p hp hceq
  have hmem : ∀ q ∈ u8nct.take 21, q.2 ∈ hexDigitChars := by decide
  exact h (hceq ▸ hmem p hp)

/-- Witness for C8 at the invalid character `'G'`. -/
theorem invalid_hex_decodes_zero_witness :
    ('G' ∉ hexDigitChars) ∧
    (_ctou8 'G' = 0 ∧ snprintu8 1 ['G', '1'] = snprintu8 1 ['0', '1']) :=
  ⟨by decide, invalid_hex_decodes_zero 'G' (by decide)⟩

/-- On a well-formed trace of non-negative short writes the loop of
`full_write` accumulates the whole remaining buffer, in order. -/
theorem full_write_go_complete : ∀ (rs : List Int) (bs acc : List Nat) (total : Int),
    validWrites rs bs.length = true →
    full_write_go rs total acc bs = some (total + bs.length, acc ++ bs)
  | rs, [], acc, total, _ => by
      cases rs <;> simp [full_write_go]
  | [], b :: bs, acc, total, h => by
      simp [validWrites] at h
  | cc :: rest, b :: bs, acc, total, h => by
      simp only [List.length_cons, validWrites, Bool.and_eq_true, decide_eq_true_eq] at h
      obtain ⟨⟨h0, hle⟩, hrec⟩ := h
      rw [full_write_go, if_neg (not_lt.mpr h0)]
      have hlen : ((b :: bs).drop cc.toNat).length = bs.length + 1 - cc.toNat := by
        simp
      have ih := full_write_go_complete rest ((b :: bs).drop cc.toNat)
        (acc ++ (b :: bs).take cc.toNat) (total + cc) (by rw [hlen]; exact hrec)
      rw [ih]
      have hcc : (cc.toNat : Int) = cc := Int.toNat_of_nonneg h0
      congr 1
      refine Prod.ext ?_ ?_
      · show total + cc + (((b :: bs).drop cc.toNat).length : Int) = total + ((b :: bs).length : Int)
        rw [hlen]
        simp only [List.length_cons]
        omega
      · show acc ++ (b :: bs).take cc.toNat ++ (b :: bs).drop cc.toNat = acc ++ (b :: bs)
        rw [List.append_assoc, List.take_append_drop]

/-- C9: write-until-complete discipline — if no underlying `write` call
returns a hard error (every result on the trace is non-negative and the
trace suffices to drain the buffer), `full_write` returns exactly the
buffer length and every byte of the buffer has been handed to the device in
order; short writes alone never cause failure or data loss. -/
theorem full_write_complete (rs : List Int) (buf : List Nat)
    (h : validWrites rs buf.length = true) :
    full_write rs buf = some ((buf.length : Int), buf) := by
  have hgo := full_write_go_complete rs buf [] 0 h
  simpa [full_write] using hgo

/-- Witness for C9: a five-byte buffer drained by two short writes of 2 and
3 bytes. -/
theorem full_write_complete_witness :
    validWrites [2, 3] [1, 2, 3, 4, 5].length = true ∧
    full_write [2, 3] [1, 2, 3, 4, 5] = some (([1, 2, 3, 4, 5].length : Int), [1, 2, 3, 4, 5]) :=
  ⟨by decide, full_write_complete [2, 3] [1, 2, 3, 4, 5] (by decide)⟩

/-- C10: Slave-name bound — for a declared buffer size `n ≥ 1` (not larger
than the actual buffer), the stored slave path is NUL-terminated at index
`n - 1` (hence at or before `n - 1`) and no byte at index `n` or beyond is
modified, whatever the length of the platform's pty name. -/
theorem slave_name_bounded (dest src : List Nat) (n : Nat)
    (h1 : 1 ≤ n) (h2 : n ≤ dest.length) :
    (set_slave_name dest src n).length = dest.length ∧
    (set_slave_name dest src n).getD (n - 1) 1 = 0 ∧
    (∀ i, n ≤ i → (set_slave_name dest src n).getD i 0 = dest.getD i 0) := by
  have hlen : (set_slave_name dest src n).length = dest.length := by
    simp [set_slave_name, strncpyList]
  refine ⟨hlen, ?_, ?_⟩
  · have hlt : n - 1 < (set_slave_name dest src n).length := by omega
    rw [List.getD_eq_getElem _ 1 hlt]
    simp [set_slave_name]
  · intro i hi
    by_cases hilt : i < dest.length
    · have hlt : i < (set_slave_name dest src n).length := by omega
      rw [List.getD_eq_getElem _ 0 hlt, List.getD_eq_getElem dest 0 hilt]
      simp only [set_slave_name]
      rw [List.getElem_set_ne (by omega)]
      simp [strncpyList, Nat.not_lt.mpr hi, List.getD_eq_getElem dest 0 hilt,
        List.getElem?_eq_getElem hilt]
    · rw [List.getD_eq_default _ 0 (by omega), List.getD_eq_default _ 0 (by omega)]

/-- Witness for C10: a four-byte destination buffer, a five-byte source
name and declared size 3. -/
theorem slave_name_bounded_witness :
    (set_slave_name [1, 1, 1, 1] [7, 8, 9, 10, 11] 3).length = [1, 1, 1, 1].length ∧
    (set_slave_name [1, 1, 1, 1] [7, 8, 9, 10, 11] 3).getD (3 - 1) 1 = 0 ∧
    (∀ i, 3 ≤ i →
      (set_slave_name [1, 1, 1, 1] [7, 8, 9, 10, 11] 3).getD i 0 = [1, 1, 1, 1].getD i 0) :=
  slave_name_bounded [1, 1, 1, 1] [7, 8, 9, 10, 11] 3 (by decide) (by decide)
